import Mathlib

/-!
Verification development for the WebRTC test utilities in this repository:

* `FakeNetworkPipe` (video_engine/test/libvietest/testbed/fake_network_pipe.cc):
  a fake network link with a capacity-bounded FIFO queue, a serialization
  delay derived from a configured link capacity, an extra fixed queueing
  delay, and loss/delay statistics.
* `Stats<T>` (modules/remote_bitrate_estimator/test/bwe_test_framework.h):
  a sample accumulator with lazily memoized mean/variance/min/max.

The C++ is embedded shallowly: `int64_t` times are `ℤ` (no overflow occurs at
the values considered), `size_t` counters are `ℕ`, buffer lengths are `ℕ`
(a `memcpy` length is non-negative in every defined execution), C++ signed
integer division (truncation toward zero) is `Int.tdiv`, and the `float`
returned by `PercentageLoss` is modeled as an exact rational `ℚ`.
Stateful member functions become functions from the state record to the
updated state record (paired with the returned value where there is one);
the `while (...) { pop front ...; }` loops of `NetworkProcess` are the
`takeWhile`/`dropWhile` split of the queue at the first element whose
arrival time is still in the future.
-/

namespace WebRTCSpec

/-- A packet on the fake link: `NetworkPacket` of fake_network_pipe.cc.
The payload bytes are irrelevant to every property considered, so only
`data_length_`, `send_time_` and `arrival_time_` are carried. -/
structure NetworkPacket where
  data_length : ℕ
  send_time : ℤ
  arrival_time : ℤ
deriving DecidableEq

/-- The member `NetworkPacket::IncrementArrivalTime`. -/
def NetworkPacket.IncrementArrivalTime (pkt : NetworkPacket) (extra_delay : ℤ) :
    NetworkPacket :=
  { pkt with arrival_time := pkt.arrival_time + extra_delay }

/-- The mutable state of a `FakeNetworkPipe`.  `capacity_link_` and
`delay_link_` are `std::queue`s, modeled as lists whose head is the queue
front. -/
structure FakeNetworkPipe where
  queue_length : ℕ
  queue_delay_ms : ℤ
  link_capacity_bytes_ms : ℤ
  dropped_packets : ℕ
  sent_packets : ℕ
  total_packet_delay : ℤ
  capacity_link : List NetworkPacket
  delay_link : List NetworkPacket
deriving DecidableEq

namespace FakeNetworkPipe

/-- The constructor `FakeNetworkPipe::FakeNetworkPipe`:
`link_capacity_bytes_ms_ = link_capacity_kbps / 8` with C++ integer
division, counters zeroed, queues empty. -/
def init (queue_length : ℕ) (queue_delay_ms : ℤ) (link_capacity_kbps : ℤ) :
    FakeNetworkPipe :=
  { queue_length := queue_length
    queue_delay_ms := queue_delay_ms
    link_capacity_bytes_ms := Int.tdiv link_capacity_kbps 8
    dropped_packets := 0
    sent_packets := 0
    total_packet_delay := 0
    capacity_link := []
    delay_link := [] }

/-- The constructor's `assert(link_capacity_bytes_ms_ > 0)`. -/
def ctorAssertHolds (p : FakeNetworkPipe) : Prop :=
  0 < p.link_capacity_bytes_ms

instance (p : FakeNetworkPipe) : Decidable p.ctorAssertHolds :=
  inferInstanceAs (Decidable (0 < p.link_capacity_bytes_ms))

/-- The `network_start_time` computed by `SendPacket` (fake_network_pipe.cc
lines 86–93): `time_now`, replaced by `capacity_link_.back()->arrival_time()`
whenever the capacity queue is non-empty. -/
def networkStartTime (time_now : ℤ) (queue : List NetworkPacket) : ℤ :=
  match queue.getLast? with
  | some back => back.arrival_time
  | none => time_now

/-- The member `FakeNetworkPipe::SendPacket(data, data_length)` called when the clock
reads `time_now`.  If the capacity queue is at (or above) its bound the
packet is dropped and only the drop counter changes; otherwise the packet is
enqueued with `arrival_time = network_start_time + capacity_delay_ms`. -/
def SendPacket (p : FakeNetworkPipe) (time_now : ℤ) (data_length : ℕ) :
    FakeNetworkPipe :=
  if p.queue_length ≤ p.capacity_link.length then
    { p with dropped_packets := p.dropped_packets + 1 }
  else
    let capacity_delay_ms : ℤ := Int.tdiv (data_length : ℤ) p.link_capacity_bytes_ms
    let arrival_time : ℤ :=
      networkStartTime time_now p.capacity_link + capacity_delay_ms
    { p with
      capacity_link :=
        p.capacity_link ++ [⟨data_length, time_now, arrival_time⟩] }

/-- The member `FakeNetworkPipe::PercentageLoss`, with the C++ `float` division modeled
as exact division in `ℚ`. -/
def PercentageLoss (p : FakeNetworkPipe) : ℚ :=
  if p.sent_packets = 0 then 0
  else (p.dropped_packets : ℚ) / ((p.sent_packets : ℚ) + (p.dropped_packets : ℚ))

/-- The member `FakeNetworkPipe::AverageDelay`: C++ `int` division of the accumulated
delay by the delivered-packet count. -/
def AverageDelay (p : FakeNetworkPipe) : ℤ :=
  if p.sent_packets = 0 then 0
  else Int.tdiv p.total_packet_delay (p.sent_packets : ℤ)

/-- The loop guard `time_now >= front->arrival_time()` of both
`NetworkProcess` while loops. -/
def due (time_now : ℤ) (pkt : NetworkPacket) : Bool :=
  decide (pkt.arrival_time ≤ time_now)

/-- The member `FakeNetworkPipe::NetworkProcess` at clock reading `time_now`.
The first while loop pops the due prefix of `capacity_link_`, adds
`queue_delay_ms_` to each popped packet's arrival time and appends it to
`delay_link_`; the second pops the due prefix of the resulting
`delay_link_`, delivering each popped packet (incrementing `sent_packets_`
and accumulating `arrival_time - send_time` into `total_packet_delay_`). -/
def NetworkProcess (p : FakeNetworkPipe) (time_now : ℤ) : FakeNetworkPipe :=
  if p.capacity_link = [] ∧ p.delay_link = [] then p
  else
    let moved : List NetworkPacket :=
      (p.capacity_link.takeWhile (due time_now)).map
        (fun pkt => pkt.IncrementArrivalTime p.queue_delay_ms)
    let capacity_rest := p.capacity_link.dropWhile (due time_now)
    let delay_all := p.delay_link ++ moved
    let delivered := delay_all.takeWhile (due time_now)
    let delay_rest := delay_all.dropWhile (due time_now)
    { p with
      capacity_link := capacity_rest
      delay_link := delay_rest
      sent_packets := p.sent_packets + delivered.length
      total_packet_delay :=
        p.total_packet_delay +
          (delivered.map (fun pkt => pkt.arrival_time - pkt.send_time)).sum }

end FakeNetworkPipe

/-- One externally observable call into the pipe, tagged with the value the
`TickTime::MillisecondTimestamp()` clock reads during the call. -/
inductive PipeEvent where
  | send (time_now : ℤ) (data_length : ℕ)
  | process (time_now : ℤ)
deriving DecidableEq

/-- The clock reading of an event. -/
def PipeEvent.time : PipeEvent → ℤ
  | .send t _ => t
  | .process t => t

/-- Apply one event to a pipe state. -/
def FakeNetworkPipe.step (p : FakeNetworkPipe) : PipeEvent → FakeNetworkPipe
  | .send t len => p.SendPacket t len
  | .process t => p.NetworkProcess t

/-- Run a sequence of events from a state. -/
def FakeNetworkPipe.run (p : FakeNetworkPipe) : List PipeEvent → FakeNetworkPipe
  | [] => p
  | e :: es => (p.step e).run es

/-- The clock readings of `evs` are non-decreasing and at least `t`. -/
def clockMono (t : ℤ) (evs : List PipeEvent) : Prop :=
  List.Pairwise (· ≤ ·) (t :: evs.map PipeEvent.time)

instance (t : ℤ) (evs : List PipeEvent) : Decidable (clockMono t evs) :=
  inferInstanceAs (Decidable (List.Pairwise (· ≤ ·) (t :: evs.map PipeEvent.time)))

namespace FakeNetworkPipe

/-! ### Configuration fields are immutable; only the queues and counters move. -/

@[simp] lemma queue_length_SendPacket (p : FakeNetworkPipe) (t : ℤ) (len : ℕ) :
    (p.SendPacket t len).queue_length = p.queue_length := by
  unfold SendPacket; split <;> rfl

@[simp] lemma queue_delay_SendPacket (p : FakeNetworkPipe) (t : ℤ) (len : ℕ) :
    (p.SendPacket t len).queue_delay_ms = p.queue_delay_ms := by
  unfold SendPacket; split <;> rfl

@[simp] lemma capacity_bytes_SendPacket (p : FakeNetworkPipe) (t : ℤ) (len : ℕ) :
    (p.SendPacket t len).link_capacity_bytes_ms = p.link_capacity_bytes_ms := by
  unfold SendPacket; split <;> rfl

@[simp] lemma sent_SendPacket (p : FakeNetworkPipe) (t : ℤ) (len : ℕ) :
    (p.SendPacket t len).sent_packets = p.sent_packets := by
  unfold SendPacket; split <;> rfl

@[simp] lemma delay_link_SendPacket (p : FakeNetworkPipe) (t : ℤ) (len : ℕ) :
    (p.SendPacket t len).delay_link = p.delay_link := by
  unfold SendPacket; split <;> rfl

@[simp] lemma total_delay_SendPacket (p : FakeNetworkPipe) (t : ℤ) (len : ℕ) :
    (p.SendPacket t len).total_packet_delay = p.total_packet_delay := by
  unfold SendPacket; split <;> rfl

@[simp] lemma queue_length_NetworkProcess (p : FakeNetworkPipe) (t : ℤ) :
    (p.NetworkProcess t).queue_length = p.queue_length := by
  unfold NetworkProcess; split <;> rfl

@[simp] lemma queue_delay_NetworkProcess (p : FakeNetworkPipe) (t : ℤ) :
    (p.NetworkProcess t).queue_delay_ms = p.queue_delay_ms := by
  unfold NetworkProcess; split <;> rfl

@[simp] lemma capacity_bytes_NetworkProcess (p : FakeNetworkPipe) (t : ℤ) :
    (p.NetworkProcess t).link_capacity_bytes_ms = p.link_capacity_bytes_ms := by
  unfold NetworkProcess; split <;> rfl

@[simp] lemma dropped_NetworkProcess (p : FakeNetworkPipe) (t : ℤ) :
    (p.NetworkProcess t).dropped_packets = p.dropped_packets := by
  unfold NetworkProcess; split <;> rfl

@[simp] lemma queue_length_step (p : FakeNetworkPipe) (e : PipeEvent) :
    (p.step e).queue_length = p.queue_length := by
  cases e <;> simp [step]

@[simp] lemma queue_delay_step (p : FakeNetworkPipe) (e : PipeEvent) :
    (p.step e).queue_delay_ms = p.queue_delay_ms := by
  cases e <;> simp [step]

@[simp] lemma capacity_bytes_step (p : FakeNetworkPipe) (e : PipeEvent) :
    (p.step e).link_capacity_bytes_ms = p.link_capacity_bytes_ms := by
  cases e <;> simp [step]

end FakeNetworkPipe

/-! ## C7: dropping on a full capacity queue is a pure counter increment -/

/-- C7: whenever `SendPacket` runs with the capacity queue already at (or
above) the configured maximum, the resulting state is exactly the old state
with `dropped_packets_` incremented by one: the queues, `sent_packets_` and
`total_packet_delay_` are untouched.  (The C++ member returns `void`; the
overflow is not reported to the caller in any way.) -/
theorem sendPacket_full_queue_drops (p : WebRTCSpec.FakeNetworkPipe) (t : ℤ)
    (len : ℕ) (h : p.queue_length ≤ p.capacity_link.length) :
    p.SendPacket t len =
      { p with dropped_packets := p.dropped_packets + 1 } := by
  unfold FakeNetworkPipe.SendPacket
  rw [if_pos h]

/-- Witness for `sendPacket_full_queue_drops` at a concrete full pipe. -/
theorem sendPacket_full_queue_drops_witness :
    FakeNetworkPipe.SendPacket ⟨1, 3, 10, 0, 0, 0, [⟨100, 0, 10⟩], []⟩ 5 100 =
      ⟨1, 3, 10, 1, 0, 0, [⟨100, 0, 10⟩], []⟩ :=
  sendPacket_full_queue_drops ⟨1, 3, 10, 0, 0, 0, [⟨100, 0, 10⟩], []⟩ 5 100
    (by decide)

/-! ## C6: the loss percentage formula -/

/-- C6: `PercentageLoss()` is `dropped / (sent + dropped)` once at least one
packet has been delivered (`sent_packets_` counts exactly the packets handed
to the receiver by `NetworkProcess`), and it is `0` whenever `sent_packets_`
is zero, no matter how many packets have been dropped. -/
theorem percentageLoss_formula (p : WebRTCSpec.FakeNetworkPipe) :
    (p.sent_packets = 0 → p.PercentageLoss = 0) ∧
    (p.sent_packets ≠ 0 →
      p.PercentageLoss =
        (p.dropped_packets : ℚ) /
          ((p.sent_packets : ℚ) + (p.dropped_packets : ℚ))) := by
  constructor <;> intro h <;> simp [FakeNetworkPipe.PercentageLoss, h]

/-- Witness for `percentageLoss_formula`: a pipe with five drops and nothing
delivered reports `0`; a pipe with one drop and two deliveries reports
`1/3`. -/
theorem percentageLoss_formula_witness :
    FakeNetworkPipe.PercentageLoss ⟨2, 0, 10, 5, 0, 0, [], []⟩ = 0 ∧
    FakeNetworkPipe.PercentageLoss ⟨2, 0, 10, 1, 2, 30, [], []⟩ = 1 / 3 := by
  refine ⟨(percentageLoss_formula _).1 rfl, ?_⟩
  rw [(percentageLoss_formula ⟨2, 0, 10, 1, 2, 30, [], []⟩).2 (by decide)]
  norm_num

/-! ## Shared helper lemmas about `SendPacket` and `run` -/

namespace FakeNetworkPipe

/-- A `SendPacket` on a full capacity queue only bumps the drop counter. -/
lemma sendPacket_drop (p : FakeNetworkPipe) (t : ℤ) (len : ℕ)
    (h : p.queue_length ≤ p.capacity_link.length) :
    p.SendPacket t len = { p with dropped_packets := p.dropped_packets + 1 } := by
  unfold SendPacket
  rw [if_pos h]

/-- A `SendPacket` on a non-full capacity queue appends one packet whose
arrival time is `networkStartTime + data_length / link_capacity_bytes_ms`. -/
lemma sendPacket_enqueue (p : FakeNetworkPipe) (t : ℤ) (len : ℕ)
    (h : p.capacity_link.length < p.queue_length) :
    p.SendPacket t len =
      { p with
        capacity_link :=
          p.capacity_link ++
            [⟨len, t,
              networkStartTime t p.capacity_link +
                Int.tdiv (len : ℤ) p.link_capacity_bytes_ms⟩] } := by
  unfold SendPacket
  rw [if_neg (Nat.not_le.2 h)]

/-- Running a concatenation of event lists runs them in order. -/
lemma run_append (p : FakeNetworkPipe) (as bs : List PipeEvent) :
    p.run (as ++ bs) = (p.run as).run bs := by
  induction as generalizing p with
  | nil => rfl
  | cons e es ih =>
    simp only [List.cons_append, run]
    exact ih (p.step e)

/-- Sending `n` back-to-back packets into a pipe with at least `n` free
capacity slots enqueues all of them: the counters and the delay queue do not
move, and the capacity queue grows by exactly `n`. -/
lemma run_replicate_send (n : ℕ) (p : FakeNetworkPipe) (t : ℤ) (len : ℕ)
    (h : p.capacity_link.length + n ≤ p.queue_length) :
    (p.run (List.replicate n (.send t len))).dropped_packets = p.dropped_packets ∧
    (p.run (List.replicate n (.send t len))).sent_packets = p.sent_packets ∧
    (p.run (List.replicate n (.send t len))).capacity_link.length =
      p.capacity_link.length + n ∧
    (p.run (List.replicate n (.send t len))).queue_length = p.queue_length := by
  induction n generalizing p with
  | zero => simp [run]
  | succ k ih =>
    rw [List.replicate_succ]
    simp only [run, step]
    have hlt : p.capacity_link.length < p.queue_length := by omega
    have hq := sendPacket_enqueue p t len hlt
    have hlen : (p.SendPacket t len).capacity_link.length =
        p.capacity_link.length + 1 := by
      rw [hq]; simp
    obtain ⟨h1, h2, h3, h4⟩ := ih (p.SendPacket t len) (by simp [hlen]; omega)
    refine ⟨?_, ?_, ?_, ?_⟩
    · rw [h1, hq]
    · rw [h2]; simp
    · rw [h3, hlen]; omega
    · rw [h4]; simp

end FakeNetworkPipe

/-! ## C8: the constructor assertion on the link capacity -/

/-- The quotient `Int.tdiv k 8` (C++ `k / 8` on signed integers) is positive exactly when
`8 ≤ k`. -/
lemma tdiv8_pos_iff (k : ℤ) : 0 < Int.tdiv k 8 ↔ 8 ≤ k := by
  rcases k with n | n
  · rw [show Int.tdiv (Int.ofNat n) 8 = ((n / 8 : ℕ) : ℤ) from rfl,
      Int.ofNat_eq_natCast]
    omega
  · rw [show Int.tdiv (Int.negSucc n) 8 = -(((n + 1) / 8 : ℕ) : ℤ) from rfl,
      Int.negSucc_eq]
    omega

/-- C8 counterexample: `link_capacity_kbps = 1` is positive, yet the
constructor's `assert(link_capacity_bytes_ms_ > 0)` fails, because
`1 / 8 == 0` in C++ integer division. -/
theorem ctorAssert_fails_at_positive_one :
    (0 : ℤ) < 1 ∧ ¬ (FakeNetworkPipe.init 2 0 1).ctorAssertHolds := by
  decide

/-- C8 amended: the construction-time assertion
`assert(link_capacity_bytes_ms_ > 0)` fails for every non-positive
`link_capacity_kbps`, but also for every positive value below 8; it holds
exactly when `link_capacity_kbps ≥ 8`. -/
theorem ctorAssert_iff_kbps_ge_8 (ql : ℕ) (qd kbps : ℤ) :
    (FakeNetworkPipe.init ql qd kbps).ctorAssertHolds ↔ 8 ≤ kbps := by
  unfold FakeNetworkPipe.ctorAssertHolds
  rw [show (FakeNetworkPipe.init ql qd kbps).link_capacity_bytes_ms =
    Int.tdiv kbps 8 from rfl]
  exact tdiv8_pos_iff kbps

/-! ## C2: the `network_start_time` of an enqueued packet -/

/-- The `network_start_time` as the spec's words for C2 describe it:
`max(now, arrival_time_of_queue_tail)`.  This is the spec-side definition,
to be compared with `FakeNetworkPipe.networkStartTime`, which is translated
from the source. -/
def claimedNetworkStartTime (time_now : ℤ) (queue : List NetworkPacket) : ℤ :=
  match queue.getLast? with
  | some back => max time_now back.arrival_time
  | none => time_now

/-- C2 counterexample.  Pipe: queue bound 2, no extra delay, 80 kbps
(10 bytes/ms).  A 100-byte packet sent at `t = 0` gets arrival time 10; a
second 100-byte packet sent at `t = 100` (no intervening `NetworkProcess`)
gets arrival time `10 + 10 = 20`, while the claimed formula
`max(now, tail arrival) + capacity_delay` yields `max(100, 10) + 10 = 110`:
the code does not take the `max` with `now`. -/
theorem networkStartTime_counterexample :
    ((((FakeNetworkPipe.init 2 0 80).SendPacket 0 100).SendPacket
          100 100).capacity_link.map NetworkPacket.arrival_time = [10, 20]) ∧
    claimedNetworkStartTime 100
          ((FakeNetworkPipe.init 2 0 80).SendPacket 0 100).capacity_link +
        Int.tdiv 100
          ((FakeNetworkPipe.init 2 0 80).SendPacket 0 100).link_capacity_bytes_ms
      = 110 ∧
    (20 : ℤ) ≠ 110 := by
  decide

/-- C2 amended: for every `SendPacket` call that enqueues, the packet's
arrival time is `network_start_time + capacity_delay` with
`capacity_delay = data_length / link_capacity_bytes_ms`, where
`network_start_time` is the arrival time of the capacity queue's tail
whenever the queue is non-empty — regardless of the current time — and is
`now` only when the queue is empty. -/
theorem sendPacket_arrival_formula (p : WebRTCSpec.FakeNetworkPipe) (t : ℤ)
    (len : ℕ) (h : p.capacity_link.length < p.queue_length) :
    (p.SendPacket t len).capacity_link =
      p.capacity_link ++
        [⟨len, t,
          FakeNetworkPipe.networkStartTime t p.capacity_link +
            Int.tdiv (len : ℤ) p.link_capacity_bytes_ms⟩] ∧
    (p.capacity_link = [] →
      FakeNetworkPipe.networkStartTime t p.capacity_link = t) ∧
    (∀ back, p.capacity_link.getLast? = some back →
      FakeNetworkPipe.networkStartTime t p.capacity_link =
        back.arrival_time) := by
  refine ⟨by rw [FakeNetworkPipe.sendPacket_enqueue p t len h], ?_, ?_⟩
  · intro h0
    simp [FakeNetworkPipe.networkStartTime, h0]
  · intro back hb
    simp [FakeNetworkPipe.networkStartTime, hb]

/-- Witness for `sendPacket_arrival_formula` on a concrete non-empty queue:
the enqueued packet's arrival time is the tail's arrival time (10) plus the
capacity delay (10), not anything involving the call time 100. -/
theorem sendPacket_arrival_formula_witness :
    (FakeNetworkPipe.SendPacket ⟨2, 0, 10, 0, 0, 0, [⟨100, 0, 10⟩], []⟩
        100 100).capacity_link = [⟨100, 0, 10⟩, ⟨100, 100, 20⟩] :=
  (sendPacket_arrival_formula ⟨2, 0, 10, 0, 0, 0, [⟨100, 0, 10⟩], []⟩ 100 100
      (by decide)).1.trans (by decide)

/-! ## C1: queue overflow, the drop counter, and `PercentageLoss` -/

/-- C1 counterexample.  Queue bound 2, capacity 80 kbps, three back-to-back
100-byte `SendPacket` calls at `t = 0` with no `NetworkProcess`: the third
packet is indeed dropped (`dropped_packets_ == 1`), but `PercentageLoss()`
returns `0`, not `1/3`, because `sent_packets_ == 0` until `NetworkProcess`
actually delivers packets. -/
theorem overflow_loss_counterexample :
    ((FakeNetworkPipe.init 2 0 80).run
        (List.replicate 3 (.send 0 100))).dropped_packets = 1 ∧
    ((FakeNetworkPipe.init 2 0 80).run
        (List.replicate 3 (.send 0 100))).PercentageLoss = 0 ∧
    (0 : ℚ) ≠ 1 / 3 := by
  refine ⟨by decide, ?_, by norm_num⟩
  have h : ((FakeNetworkPipe.init 2 0 80).run
      (List.replicate 3 (.send 0 100))).sent_packets = 0 := by decide
  rw [FakeNetworkPipe.PercentageLoss, h]
  norm_num

/-- C1 amended: injecting `K + 1` packets into a pipe with queue bound `K`
and no intervening `NetworkProcess` drops exactly one packet
(`dropped_packets_ == 1`), but `PercentageLoss()` at that point returns `0`
because nothing has been delivered (`sent_packets_ == 0`); the value
`1/(K+1)` is only reported after the `K` queued packets have been delivered,
as in the concrete scenario (bound 2, 80 kbps, three 100-byte sends, then
one sufficiently late `NetworkProcess`), where it is `1/3`. -/
theorem capacity_queue_overflow (K : ℕ) (t0 : ℤ) (len : ℕ) (qd kbps : ℤ)
    (hK : 1 ≤ K) :
    ((FakeNetworkPipe.init K qd kbps).run
        (List.replicate (K + 1) (.send t0 len))).dropped_packets = 1 ∧
    ((FakeNetworkPipe.init K qd kbps).run
        (List.replicate (K + 1) (.send t0 len))).sent_packets = 0 ∧
    ((FakeNetworkPipe.init K qd kbps).run
        (List.replicate (K + 1) (.send t0 len))).PercentageLoss = 0 ∧
    FakeNetworkPipe.PercentageLoss
      (FakeNetworkPipe.NetworkProcess
        ((FakeNetworkPipe.init 2 0 80).run (List.replicate 3 (.send 0 100)))
        1000) = 1 / 3 := by
  have hrep : List.replicate (K + 1) (PipeEvent.send t0 len) =
      List.replicate K (PipeEvent.send t0 len) ++ [PipeEvent.send t0 len] :=
    List.replicate_succ' K _
  rw [hrep, FakeNetworkPipe.run_append]
  obtain ⟨h1, h2, h3, h4⟩ :=
    FakeNetworkPipe.run_replicate_send K (FakeNetworkPipe.init K qd kbps) t0
      len (by simp [FakeNetworkPipe.init])
  set q0 := (FakeNetworkPipe.init K qd kbps).run
    (List.replicate K (PipeEvent.send t0 len)) with hq0
  have hfull : q0.queue_length ≤ q0.capacity_link.length := by
    rw [h4, h3]
    simp [FakeNetworkPipe.init]
  have hdrop := FakeNetworkPipe.sendPacket_drop q0 t0 len hfull
  have hrun : q0.run [PipeEvent.send t0 len] = q0.SendPacket t0 len := rfl
  rw [hrun, hdrop]
  have hd : q0.dropped_packets = 0 := by
    rw [h1]; rfl
  have hs : q0.sent_packets = 0 := by
    rw [h2]; rfl
  refine ⟨by simp [hd], by simp [hs], ?_, ?_⟩
  · rw [FakeNetworkPipe.PercentageLoss]
    simp [hs]
  · have hsent : (FakeNetworkPipe.NetworkProcess
        ((FakeNetworkPipe.init 2 0 80).run (List.replicate 3 (.send 0 100)))
        1000).sent_packets = 2 := by decide
    have hdrop2 : (FakeNetworkPipe.NetworkProcess
        ((FakeNetworkPipe.init 2 0 80).run (List.replicate 3 (.send 0 100)))
        1000).dropped_packets = 1 := by decide
    rw [FakeNetworkPipe.PercentageLoss, hsent, hdrop2]
    norm_num

/-- Witness for `capacity_queue_overflow` at `K = 2`, queue delay 5,
160 kbps, 100-byte packets sent at `t = 7`. -/
theorem capacity_queue_overflow_witness :
    ((FakeNetworkPipe.init 2 5 160).run
        (List.replicate 3 (.send 7 100))).dropped_packets = 1 ∧
    ((FakeNetworkPipe.init 2 5 160).run
        (List.replicate 3 (.send 7 100))).sent_packets = 0 ∧
    ((FakeNetworkPipe.init 2 5 160).run
        (List.replicate 3 (.send 7 100))).PercentageLoss = 0 ∧
    FakeNetworkPipe.PercentageLoss
      (FakeNetworkPipe.NetworkProcess
        ((FakeNetworkPipe.init 2 0 80).run (List.replicate 3 (.send 0 100)))
        1000) = 1 / 3 :=
  capacity_queue_overflow 2 7 100 5 160 (by decide)

/-! ## C4: average delay of a single packet through an empty pipe -/

namespace FakeNetworkPipe

/-- Running `NetworkProcess` on a pipe holding exactly one packet, on the capacity
queue, called late enough to deliver it: one packet is delivered and its
delay `arrival_time + queue_delay - send_time` is accumulated. -/
lemma networkProcess_single (pkt : NetworkPacket) (p : FakeNetworkPipe)
    (t1 : ℤ) (hc : p.capacity_link = [pkt]) (hd : p.delay_link = [])
    (h1 : pkt.arrival_time + p.queue_delay_ms ≤ t1)
    (h0 : pkt.arrival_time ≤ t1) :
    (p.NetworkProcess t1).sent_packets = p.sent_packets + 1 ∧
    (p.NetworkProcess t1).total_packet_delay =
      p.total_packet_delay +
        (pkt.arrival_time + p.queue_delay_ms - pkt.send_time) := by
  unfold NetworkProcess
  rw [if_neg (by simp [hc])]
  simp [hc, hd, List.takeWhile, due, NetworkPacket.IncrementArrivalTime, h0, h1]

end FakeNetworkPipe

/-- C4: with link capacity `8 * m` kbps (a positive multiple of 8, so
`m = C / 8` bytes/ms) and fixed queue delay `D ≥ 0`, a single `S`-byte packet
sent at `t0` into an empty pipe and processed at any
`t1 ≥ t0 + S/(C/8) + D` yields `AverageDelay() = S/(C/8) + D`, every
division being C++ integer division. -/
theorem averageDelay_single_packet (ql : ℕ) (D m : ℤ) (S : ℕ) (t0 t1 : ℤ)
    (hql : 1 ≤ ql) (hm : 0 < m) (hD : 0 ≤ D)
    (ht : t0 + Int.tdiv (S : ℤ) m + D ≤ t1) :
    FakeNetworkPipe.AverageDelay
      (FakeNetworkPipe.NetworkProcess
        ((FakeNetworkPipe.init ql D (8 * m)).SendPacket t0 S) t1) =
      Int.tdiv (S : ℤ) (Int.tdiv (8 * m) 8) + D := by
  have h8 : Int.tdiv (8 * m) 8 = m := Int.mul_tdiv_cancel_left m (by norm_num)
  have hd0 : 0 ≤ Int.tdiv (S : ℤ) m := Int.tdiv_nonneg (by positivity) hm.le
  have hsend := FakeNetworkPipe.sendPacket_enqueue
    (FakeNetworkPipe.init ql D (8 * m)) t0 S
    (by simpa [FakeNetworkPipe.init] using hql)
  have hc : ((FakeNetworkPipe.init ql D (8 * m)).SendPacket t0 S).capacity_link =
      [⟨S, t0, t0 + Int.tdiv (S : ℤ) m⟩] := by
    rw [hsend]
    simp [FakeNetworkPipe.init, FakeNetworkPipe.networkStartTime, h8]
  have hdl : ((FakeNetworkPipe.init ql D (8 * m)).SendPacket t0 S).delay_link = [] := by
    rw [hsend]; rfl
  have hqd : ((FakeNetworkPipe.init ql D (8 * m)).SendPacket t0 S).queue_delay_ms = D := by
    rw [hsend]; rfl
  have hsent0 : ((FakeNetworkPipe.init ql D (8 * m)).SendPacket t0 S).sent_packets = 0 := by
    rw [hsend]; rfl
  have htot0 : ((FakeNetworkPipe.init ql D (8 * m)).SendPacket t0 S).total_packet_delay = 0 := by
    rw [hsend]; rfl
  obtain ⟨hs, htot⟩ := FakeNetworkPipe.networkProcess_single
    ⟨S, t0, t0 + Int.tdiv (S : ℤ) m⟩
    ((FakeNetworkPipe.init ql D (8 * m)).SendPacket t0 S) t1 hc hdl
    (by rw [hqd]; show t0 + Int.tdiv (S : ℤ) m + D ≤ t1; omega)
    (by show t0 + Int.tdiv (S : ℤ) m ≤ t1; omega)
  rw [FakeNetworkPipe.AverageDelay, hs, hsent0, htot, htot0, hqd, h8]
  norm_num
  ring

/-- Witness for `averageDelay_single_packet`: queue bound 1, 16 kbps
(2 bytes/ms), extra delay 5 ms, one 100-byte packet at `t = 0`, processed at
`t = 100`: the average delay is `100/2 + 5 = 55`. -/
theorem averageDelay_single_packet_witness :
    FakeNetworkPipe.AverageDelay
      (FakeNetworkPipe.NetworkProcess
        ((FakeNetworkPipe.init 1 5 16).SendPacket 0 100) 100) =
      Int.tdiv (100 : ℤ) (Int.tdiv 16 8) + 5 :=
  averageDelay_single_packet 1 5 2 100 0 100 (by decide) (by decide) (by decide)
    (by decide)

/-! ## C5: both queues stay sorted by arrival time -/

/-- The elements of a packet list are non-decreasing in arrival time. -/
def pSorted (l : List NetworkPacket) : Prop :=
  l.Pairwise fun a b => a.arrival_time ≤ b.arrival_time

instance pSorted.dec (l : List NetworkPacket) : Decidable (pSorted l) :=
  List.instDecidablePairwise l

/-- A `getLast? = some back` witness is a member of the list. -/
lemma mem_of_getLast?_eq {l : List NetworkPacket} {a : NetworkPacket}
    (h : l.getLast? = some a) : a ∈ l := by
  have hne : l ≠ [] := by rintro rfl; simp at h
  rw [List.getLast?_eq_getLast l hne] at h
  obtain rfl : l.getLast hne = a := by injection h
  exact List.getLast_mem hne

/-- In a sorted packet list every element's arrival time is at most the
last element's. -/
lemma le_getLast_of_pSorted : ∀ {l : List NetworkPacket}, pSorted l →
    ∀ {back : NetworkPacket}, l.getLast? = some back →
    ∀ a ∈ l, a.arrival_time ≤ back.arrival_time := by
  intro l
  induction l with
  | nil => intro _ back hb; simp at hb
  | cons x xs ih =>
    intro h back hb a ha
    rcases List.mem_cons.1 ha with rfl | hmem
    · cases xs with
      | nil =>
        rw [List.getLast?_singleton] at hb
        obtain rfl : a = back := by injection hb
        exact le_refl _
      | cons y ys =>
        rw [List.getLast?_cons_cons] at hb
        exact (List.pairwise_cons.1 h).1 back (mem_of_getLast?_eq hb)
    · cases xs with
      | nil => simp at hmem
      | cons y ys =>
        rw [List.getLast?_cons_cons] at hb
        exact ih (List.pairwise_cons.1 h).2 hb a hmem

namespace FakeNetworkPipe

/-- What `NetworkProcess` leaves on the capacity queue: the not-yet-due
suffix. -/
lemma networkProcess_capacity (p : FakeNetworkPipe) (t : ℤ) :
    (p.NetworkProcess t).capacity_link = p.capacity_link.dropWhile (due t) := by
  unfold NetworkProcess
  split
  · rename_i h
    simp [h.1]
  · rfl

/-- What `NetworkProcess` leaves on the delay queue: the not-yet-due suffix
of the old delay queue extended with the freshly moved packets. -/
lemma networkProcess_delay (p : FakeNetworkPipe) (t : ℤ) :
    (p.NetworkProcess t).delay_link =
      (p.delay_link ++
          (p.capacity_link.takeWhile (due t)).map
            (fun pkt => pkt.IncrementArrivalTime p.queue_delay_ms)).dropWhile
        (due t) := by
  unfold NetworkProcess
  split
  · rename_i h
    simp [h.1, h.2]
  · rfl

/-- The inductive invariant behind C5 (and the amended C3), relative to a
lower bound `t` on the next clock reading:

1. the capacity queue is sorted by arrival time;
2. the delay queue is sorted by arrival time;
3. every delay-queue arrival time is at most every capacity-queue arrival
   time plus `queue_delay_ms_` (a capacity packet moves to the delay queue
   no earlier than everything already there);
4. every delay-queue arrival time is at most `t + queue_delay_ms_`. -/
structure PipeInv (t : ℤ) (p : FakeNetworkPipe) : Prop where
  capSorted : pSorted p.capacity_link
  delSorted : pSorted p.delay_link
  cross : ∀ d ∈ p.delay_link, ∀ c ∈ p.capacity_link,
    d.arrival_time ≤ c.arrival_time + p.queue_delay_ms
  delBound : ∀ d ∈ p.delay_link, d.arrival_time ≤ t + p.queue_delay_ms

/-- Lemma: `SendPacket` preserves the invariant (the clock may only move forward,
and the configured capacity must be positive, as the constructor asserts). -/
lemma pipeInv_SendPacket {t t' : ℤ} {p : FakeNetworkPipe} (len : ℕ)
    (hc : 0 < p.link_capacity_bytes_ms) (htt : t ≤ t') (h : PipeInv t p) :
    PipeInv t' (p.SendPacket t' len) := by
  have hdv : 0 ≤ Int.tdiv (len : ℤ) p.link_capacity_bytes_ms :=
    Int.tdiv_nonneg (by positivity) hc.le
  by_cases hfull : p.queue_length ≤ p.capacity_link.length
  · rw [sendPacket_drop p t' len hfull]
    exact ⟨h.capSorted, h.delSorted, h.cross, fun d hd => by
      show d.arrival_time ≤ t' + p.queue_delay_ms
      have := h.delBound d hd
      omega⟩
  · push_neg at hfull
    rw [sendPacket_enqueue p t' len hfull]
    refine ⟨?_, h.delSorted, ?_, ?_⟩
    · show pSorted (p.capacity_link ++
        [⟨len, t', networkStartTime t' p.capacity_link +
          Int.tdiv (len : ℤ) p.link_capacity_bytes_ms⟩])
      refine List.pairwise_append.2 ⟨h.capSorted, List.pairwise_singleton _ _, ?_⟩
      intro a ha b hb
      obtain rfl : b = ⟨len, t', networkStartTime t' p.capacity_link +
          Int.tdiv (len : ℤ) p.link_capacity_bytes_ms⟩ := by simpa using hb
      show a.arrival_time ≤ networkStartTime t' p.capacity_link +
        Int.tdiv (len : ℤ) p.link_capacity_bytes_ms
      cases hlast : p.capacity_link.getLast? with
      | none =>
        rw [List.getLast?_eq_none_iff] at hlast
        rw [hlast] at ha
        simp at ha
      | some back =>
        have h1 : a.arrival_time ≤ back.arrival_time :=
          le_getLast_of_pSorted h.capSorted hlast a ha
        have h2 : networkStartTime t' p.capacity_link = back.arrival_time := by
          simp [networkStartTime, hlast]
        omega
    · intro d hd c hc'
      show d.arrival_time ≤ c.arrival_time + p.queue_delay_ms
      rcases List.mem_append.1 hc' with hco | hcn
      · exact h.cross d hd c hco
      · obtain rfl : c = ⟨len, t', networkStartTime t' p.capacity_link +
            Int.tdiv (len : ℤ) p.link_capacity_bytes_ms⟩ := by simpa using hcn
        cases hlast : p.capacity_link.getLast? with
        | none =>
          have h2 : networkStartTime t' p.capacity_link = t' := by
            simp [networkStartTime, hlast]
          have h3 := h.delBound d hd
          show d.arrival_time ≤
            networkStartTime t' p.capacity_link +
              Int.tdiv (len : ℤ) p.link_capacity_bytes_ms + p.queue_delay_ms
          omega
        | some back =>
          have h2 : networkStartTime t' p.capacity_link = back.arrival_time := by
            simp [networkStartTime, hlast]
          have h3 := h.cross d hd back (mem_of_getLast?_eq hlast)
          show d.arrival_time ≤
            networkStartTime t' p.capacity_link +
              Int.tdiv (len : ℤ) p.link_capacity_bytes_ms + p.queue_delay_ms
          omega
    · intro d hd
      show d.arrival_time ≤ t' + p.queue_delay_ms
      have := h.delBound d hd
      omega

/-- Lemma: `NetworkProcess` preserves the invariant. -/
lemma pipeInv_NetworkProcess {t t' : ℤ} {p : FakeNetworkPipe} (htt : t ≤ t')
    (h : PipeInv t p) : PipeInv t' (p.NetworkProcess t') := by
  have hsorted_moved : pSorted
      ((p.capacity_link.takeWhile (due t')).map
        (fun pkt => pkt.IncrementArrivalTime p.queue_delay_ms)) := by
    refine List.pairwise_map.2 ?_
    refine List.Pairwise.imp ?_
      (List.Pairwise.sublist (List.takeWhile_sublist _) h.capSorted)
    intro a b hab
    simp only [NetworkPacket.IncrementArrivalTime]
    omega
  have hall_sorted : pSorted
      (p.delay_link ++
        (p.capacity_link.takeWhile (due t')).map
          (fun pkt => pkt.IncrementArrivalTime p.queue_delay_ms)) := by
    refine List.pairwise_append.2 ⟨h.delSorted, hsorted_moved, ?_⟩
    intro d hd m hm
    obtain ⟨a, ha, rfl⟩ := List.mem_map.1 hm
    have := h.cross d hd a ((List.takeWhile_sublist _).mem ha)
    simpa [NetworkPacket.IncrementArrivalTime] using this
  refine ⟨?_, ?_, ?_, ?_⟩
  · rw [networkProcess_capacity]
    exact List.Pairwise.sublist (List.dropWhile_sublist _) h.capSorted
  · rw [networkProcess_delay]
    exact List.Pairwise.sublist (List.dropWhile_sublist _) hall_sorted
  · intro d hd c hc'
    rw [networkProcess_delay] at hd
    rw [networkProcess_capacity] at hc'
    rw [queue_delay_NetworkProcess]
    have hd' := (List.dropWhile_sublist _).mem hd
    have hc'' : c ∈ p.capacity_link := (List.dropWhile_sublist _).mem hc'
    rcases List.mem_append.1 hd' with hdo | hdm
    · exact h.cross d hdo c hc''
    · obtain ⟨a, ha, rfl⟩ := List.mem_map.1 hdm
      have hsplit : pSorted (p.capacity_link.takeWhile (due t') ++
          p.capacity_link.dropWhile (due t')) := by
        rw [List.takeWhile_append_dropWhile]
        exact h.capSorted
      have hac := (List.pairwise_append.1 hsplit).2.2 a ha c hc'
      simp only [NetworkPacket.IncrementArrivalTime]
      omega
  · intro d hd
    rw [networkProcess_delay] at hd
    rw [queue_delay_NetworkProcess]
    have hd' := (List.dropWhile_sublist _).mem hd
    rcases List.mem_append.1 hd' with hdo | hdm
    · have := h.delBound d hdo
      omega
    · obtain ⟨a, ha, rfl⟩ := List.mem_map.1 hdm
      have hdue := List.mem_takeWhile_imp ha
      simp only [due, decide_eq_true_eq] at hdue
      simp only [NetworkPacket.IncrementArrivalTime]
      omega

end FakeNetworkPipe

/-- The clock reading after the last event of `evs` (or `t` if none). -/
def finalClock (t : ℤ) : List PipeEvent → ℤ
  | [] => t
  | e :: es => finalClock e.time es

lemma clockMono_cons {t : ℤ} {e : PipeEvent} {es : List PipeEvent} :
    clockMono t (e :: es) ↔ t ≤ e.time ∧ clockMono e.time es := by
  unfold clockMono
  rw [List.map_cons]
  constructor
  · intro h
    obtain ⟨h1, h2⟩ := List.pairwise_cons.1 h
    exact ⟨h1 e.time (by simp), h2⟩
  · rintro ⟨h1, h2⟩
    refine List.pairwise_cons.2 ⟨?_, h2⟩
    intro x hx
    rcases List.mem_cons.1 hx with rfl | hx'
    · exact h1
    · have := (List.pairwise_cons.1 h2).1 x hx'
      omega

/-- The invariant holds along every run whose clock readings are
non-decreasing. -/
lemma pipeInv_run : ∀ (evs : List PipeEvent) (p : WebRTCSpec.FakeNetworkPipe)
    (t : ℤ), 0 < p.link_capacity_bytes_ms → clockMono t evs →
    FakeNetworkPipe.PipeInv t p →
    FakeNetworkPipe.PipeInv (finalClock t evs) (p.run evs) := by
  intro evs
  induction evs with
  | nil => intro p t _ _ h; exact h
  | cons e es ih =>
    intro p t hc hm h
    obtain ⟨h1, h2⟩ := clockMono_cons.1 hm
    have hstep : FakeNetworkPipe.PipeInv e.time (p.step e) := by
      cases e with
      | send t' len => exact FakeNetworkPipe.pipeInv_SendPacket len hc h1 h
      | process t' => exact FakeNetworkPipe.pipeInv_NetworkProcess h1 h
    exact ih (p.step e) e.time
      (by rw [FakeNetworkPipe.capacity_bytes_step]; exact hc) h2 hstep

/-- C5: in every state reached from a freshly constructed pipe (with a
capacity the constructor's assertion accepts) by any interleaving of
`SendPacket` and `NetworkProcess` calls with non-decreasing clock readings,
both the capacity queue and the delay queue are non-decreasing in arrival
time.  The embedding only ever appends to a queue's back or pops its front,
mirroring the FIFO `std::queue` use in the source: no operation re-sorts. -/
theorem queues_sorted_fifo (ql : ℕ) (qd kbps t0 : ℤ) (evs : List PipeEvent)
    (hkbps : 8 ≤ kbps) (hm : clockMono t0 evs) :
    pSorted ((FakeNetworkPipe.init ql qd kbps).run evs).capacity_link ∧
    pSorted ((FakeNetworkPipe.init ql qd kbps).run evs).delay_link := by
  have hc : 0 < (FakeNetworkPipe.init ql qd kbps).link_capacity_bytes_ms := by
    show 0 < Int.tdiv kbps 8
    exact (tdiv8_pos_iff kbps).2 hkbps
  have hinv : FakeNetworkPipe.PipeInv t0 (FakeNetworkPipe.init ql qd kbps) :=
    ⟨by simp [FakeNetworkPipe.init, pSorted],
     by simp [FakeNetworkPipe.init, pSorted],
     by simp [FakeNetworkPipe.init],
     by simp [FakeNetworkPipe.init]⟩
  have h := pipeInv_run evs (FakeNetworkPipe.init ql qd kbps) t0 hc hm hinv
  exact ⟨h.capSorted, h.delSorted⟩

/-- Witness for `queues_sorted_fifo`: a concrete mixed trace (two sends, a
process, another send) with non-decreasing clock readings. -/
theorem queues_sorted_fifo_witness :
    pSorted ((FakeNetworkPipe.init 2 5 80).run
      [.send 0 100, .send 3 50, .process 12, .send 20 100]).capacity_link ∧
    pSorted ((FakeNetworkPipe.init 2 5 80).run
      [.send 0 100, .send 3 50, .process 12, .send 20 100]).delay_link :=
  queues_sorted_fifo 2 5 80 0 [.send 0 100, .send 3 50, .process 12,
    .send 20 100] (by decide) (by decide)

/-! ## C3: arrival times versus send times -/

/-- Every packet held by the pipe (on either queue) has
`arrival_time >= send_time`: the invariant claimed by the spec. -/
def arrOk (p : FakeNetworkPipe) : Prop :=
  (∀ pkt ∈ p.capacity_link, pkt.send_time ≤ pkt.arrival_time) ∧
  (∀ pkt ∈ p.delay_link, pkt.send_time ≤ pkt.arrival_time)

instance arrOk.dec (p : FakeNetworkPipe) : Decidable (arrOk p) :=
  inferInstanceAs (Decidable (_ ∧ _))

/-- C3 counterexample.  Queue bound 2, no extra delay, 80 kbps.  A 100-byte
packet at `t = 0` is enqueued with arrival time 10; with no `NetworkProcess`
in between, a second 100-byte packet at `t = 100` is enqueued with arrival
time `10 + 10 = 20 < 100`: a reachable state (clock readings 0 ≤ 100 are
non-decreasing) holds a packet whose arrival time precedes its send time. -/
theorem arrival_before_send_counterexample :
    clockMono 0 [.send 0 100, .send 100 100] ∧
    ¬ arrOk ((FakeNetworkPipe.init 2 0 80).run
      [.send 0 100, .send 100 100]) := by
  decide

/-- Returns `true` iff a `SendPacket` at clock reading `t` is no later than the
capacity queue's tail arrival time (trivially `true` on an empty queue):
under this pacing the link never serves packets "in the past". -/
def tailOk (p : FakeNetworkPipe) (t : ℤ) : Bool :=
  match p.capacity_link.getLast? with
  | some back => decide (t ≤ back.arrival_time)
  | none => true

/-- A trace is well paced from `p` when every `send` event happens no later
than the current capacity-queue tail's arrival time. -/
def wellPaced : FakeNetworkPipe → List PipeEvent → Bool
  | _, [] => true
  | p, PipeEvent.send t len :: es =>
      tailOk p t && wellPaced (p.SendPacket t len) es
  | p, PipeEvent.process t :: es => wellPaced (p.NetworkProcess t) es

namespace FakeNetworkPipe

/-- A well-paced `SendPacket` preserves `arrival_time >= send_time`. -/
lemma arrOk_SendPacket {p : FakeNetworkPipe} {t : ℤ} (len : ℕ)
    (hc : 0 < p.link_capacity_bytes_ms) (htail : tailOk p t = true)
    (h : arrOk p) : arrOk (p.SendPacket t len) := by
  have hdv : 0 ≤ Int.tdiv (len : ℤ) p.link_capacity_bytes_ms :=
    Int.tdiv_nonneg (by positivity) hc.le
  by_cases hfull : p.queue_length ≤ p.capacity_link.length
  · rw [sendPacket_drop p t len hfull]
    exact h
  · push_neg at hfull
    rw [sendPacket_enqueue p t len hfull]
    refine ⟨?_, h.2⟩
    intro pkt hpkt
    rcases List.mem_append.1 hpkt with hold | hnew
    · exact h.1 pkt hold
    · obtain rfl : pkt = ⟨len, t, networkStartTime t p.capacity_link +
          Int.tdiv (len : ℤ) p.link_capacity_bytes_ms⟩ := by simpa using hnew
      show t ≤ networkStartTime t p.capacity_link +
        Int.tdiv (len : ℤ) p.link_capacity_bytes_ms
      cases hlast : p.capacity_link.getLast? with
      | none =>
        have h2 : networkStartTime t p.capacity_link = t := by
          simp [networkStartTime, hlast]
        omega
      | some back =>
        have h2 : networkStartTime t p.capacity_link = back.arrival_time := by
          simp [networkStartTime, hlast]
        have h3 : t ≤ back.arrival_time := by
          unfold tailOk at htail
          rw [hlast] at htail
          simpa using htail
        omega

/-- With a non-negative configured extra delay, `NetworkProcess` preserves
`arrival_time >= send_time`. -/
lemma arrOk_NetworkProcess {p : FakeNetworkPipe} (t : ℤ)
    (hqd : 0 ≤ p.queue_delay_ms) (h : arrOk p) :
    arrOk (p.NetworkProcess t) := by
  constructor
  · intro pkt hpkt
    rw [networkProcess_capacity] at hpkt
    exact h.1 pkt ((List.dropWhile_sublist _).mem hpkt)
  · intro pkt hpkt
    rw [networkProcess_delay] at hpkt
    have hpkt' := (List.dropWhile_sublist _).mem hpkt
    rcases List.mem_append.1 hpkt' with hold | hmoved
    · exact h.2 pkt hold
    · obtain ⟨a, ha, rfl⟩ := List.mem_map.1 hmoved
      have := h.1 a ((List.takeWhile_sublist _).mem ha)
      simp only [NetworkPacket.IncrementArrivalTime]
      omega

/-- The bound `arrival_time >= send_time` holds everywhere along a well-paced run. -/
lemma arrOk_run : ∀ (evs : List PipeEvent) (p : FakeNetworkPipe),
    0 < p.link_capacity_bytes_ms → 0 ≤ p.queue_delay_ms →
    wellPaced p evs = true → arrOk p → arrOk (p.run evs) := by
  intro evs
  induction evs with
  | nil => intro p _ _ _ h; exact h
  | cons e es ih =>
    intro p hc hqd hwp h
    cases e with
    | send t len =>
      rw [show wellPaced p (PipeEvent.send t len :: es) =
        (tailOk p t && wellPaced (p.SendPacket t len) es) from rfl,
        Bool.and_eq_true] at hwp
      refine ih (p.SendPacket t len) ?_ ?_ hwp.2
        (arrOk_SendPacket len hc hwp.1 h)
      · rw [capacity_bytes_SendPacket]; exact hc
      · rw [queue_delay_SendPacket]; exact hqd
    | process t =>
      rw [show wellPaced p (PipeEvent.process t :: es) =
        wellPaced (p.NetworkProcess t) es from rfl] at hwp
      refine ih (p.NetworkProcess t) ?_ ?_ hwp
        (arrOk_NetworkProcess t hqd h)
      · rw [capacity_bytes_NetworkProcess]; exact hc
      · rw [queue_delay_NetworkProcess]; exact hqd

end FakeNetworkPipe

/-- C3 amended: the invariant `arrival_time >= send_time` does hold for every
packet held by the pipe, provided the configured extra delay is non-negative,
the configured capacity passes the constructor's assertion, and the run is
well paced: no `SendPacket` happens after the capacity-queue tail's arrival
time has already passed (`NetworkProcess` keeps up with the link).  Without
the pacing condition the invariant fails (see the counterexample): a send
into a non-empty queue whose tail arrival time is in the past produces a
packet with `arrival_time < send_time`. -/
theorem arrival_after_send_wellPaced (ql : ℕ) (qd kbps : ℤ)
    (evs : List PipeEvent) (hkbps : 8 ≤ kbps) (hqd : 0 ≤ qd)
    (hwp : wellPaced (FakeNetworkPipe.init ql qd kbps) evs = true) :
    arrOk ((FakeNetworkPipe.init ql qd kbps).run evs) := by
  refine FakeNetworkPipe.arrOk_run evs _ ?_ hqd hwp ?_
  · show 0 < Int.tdiv kbps 8
    exact (tdiv8_pos_iff kbps).2 hkbps
  · exact ⟨by simp [FakeNetworkPipe.init], by simp [FakeNetworkPipe.init]⟩

/-- Witness for `arrival_after_send_wellPaced`: a well-paced concrete trace
(the second send at `t = 5` precedes the tail arrival time 10). -/
theorem arrival_after_send_wellPaced_witness :
    arrOk ((FakeNetworkPipe.init 2 3 80).run
      [.send 0 100, .send 5 100, .process 30]) :=
  arrival_after_send_wellPaced 2 3 80 [.send 0 100, .send 5 100, .process 30]
    (by decide) (by decide) (by decide)

/-! ## The `Stats<T>` accumulator of bwe_test_framework.h

`T` is the numeric template parameter; the development is stated over any
`LinearOrderedField`, and the claim theorems instantiate `T := ℚ` (an exact
model of the numeric type; note that all four getters recompute from the
stored `data_` vector, never incrementally, so exact arithmetic is faithful
for the batching property). -/

/-- The state of a `Stats<T>`: the pushed samples plus the four memoized
statistics with their staleness counters. -/
structure Stats (T : Type) where
  data : List T
  last_mean_count : ℕ
  last_variance_count : ℕ
  last_minmax_count : ℕ
  mean : T
  variance : T
  min : T
  max : T
deriving DecidableEq

namespace Stats

variable {T : Type} [LinearOrderedField T]

/-- The default constructor: empty data, all counters and caches zero. -/
def init : Stats T := ⟨[], 0, 0, 0, 0, 0, 0, 0⟩

/-- The member `Stats::Push`: `data_.push_back(data_point)`. -/
def Push (s : Stats T) (x : T) : Stats T := { s with data := s.data ++ [x] }

/-- The member `Stats::GetMean`: if the cached count is stale, recompute
`std::accumulate(...) / size` and refresh the cache; the returned value is
paired with the updated state. -/
def GetMean (s : Stats T) : T × Stats T :=
  if s.last_mean_count ≠ s.data.length then
    let c := s.data.length
    let m := (s.data.foldl (· + ·) 0) / (c : T)
    (m, { s with last_mean_count := c, mean := m })
  else
    (s.mean, s)

/-- The assertion of `GetMean`, `assert(last_mean_count_ != 0)`, which executes only in the
recompute branch, after `last_mean_count_ = data_.size()`. -/
def meanAssertOk (s : Stats T) : Prop :=
  s.last_mean_count ≠ s.data.length → s.data.length ≠ 0

/-- The member `Stats::GetVariance`: on a stale cache, set
`last_variance_count_ = size`, call `GetMean()` (which may itself refresh the
mean cache), accumulate squared deviations, divide by the count. -/
def GetVariance (s : Stats T) : T × Stats T :=
  if s.last_variance_count ≠ s.data.length then
    let c := s.data.length
    let s1 : Stats T := { s with last_variance_count := c }
    let r := s1.GetMean
    let m := r.1
    let s2 := r.2
    let v := (s2.data.foldl (fun acc x => acc + (x - m) * (x - m)) 0) / (c : T)
    (v, { s2 with variance := v })
  else
    (s.variance, s)

/-- The assertion of `GetVariance`, `assert(last_variance_count_ != 0)`. -/
def varianceAssertOk (s : Stats T) : Prop :=
  s.last_variance_count ≠ s.data.length → s.data.length ≠ 0

/-- The member `Stats::RefreshMinMax`: on a stale cache set both extrema to 0, return if
the data is empty, otherwise scan the vector with `std::min`/`std::max`. -/
def RefreshMinMax (s : Stats T) : Stats T :=
  if s.last_minmax_count ≠ s.data.length then
    let s1 : Stats T := { s with last_minmax_count := s.data.length }
    match s.data with
    | [] => { s1 with min := 0, max := 0 }
    | x :: xs => { s1 with min := xs.foldl Min.min x, max := xs.foldl Max.max x }
  else s

/-- The member `Stats::GetMin`. -/
def GetMin (s : Stats T) : T × Stats T :=
  let s1 := s.RefreshMinMax
  (s1.min, s1)

/-- The member `Stats::GetMax`. -/
def GetMax (s : Stats T) : T × Stats T :=
  let s1 := s.RefreshMinMax
  (s1.max, s1)

/-- The value `GetMean` computes when it recomputes:
`accumulate(data) / size` (0 on empty data, where the division is `0 / 0`). -/
def specMean (l : List T) : T := (l.foldl (· + ·) 0) / (l.length : T)

/-- The value `GetVariance` computes when it recomputes. -/
def specVariance (l : List T) : T :=
  (l.foldl (fun acc x => acc + (x - specMean l) * (x - specMean l)) 0) /
    (l.length : T)

/-- The value `RefreshMinMax` stores in `min_` when it recomputes. -/
def specMin (l : List T) : T :=
  match l with
  | [] => 0
  | x :: xs => xs.foldl Min.min x

/-- The value `RefreshMinMax` stores in `max_` when it recomputes. -/
def specMax (l : List T) : T :=
  match l with
  | [] => 0
  | x :: xs => xs.foldl Max.max x

/-! ### Characterizations of the getters -/

@[simp] lemma data_Push (s : Stats T) (x : T) : (s.Push x).data = s.data ++ [x] :=
  rfl

@[simp] lemma data_GetMean (s : Stats T) : (s.GetMean).2.data = s.data := by
  unfold GetMean
  split <;> rfl

@[simp] lemma data_GetVariance (s : Stats T) : (s.GetVariance).2.data = s.data := by
  unfold GetVariance
  split
  · dsimp only
    rw [data_GetMean]
  · rfl

@[simp] lemma data_RefreshMinMax (s : Stats T) : (s.RefreshMinMax).data = s.data := by
  unfold RefreshMinMax
  split
  · rcases hdata : s.data with _ | ⟨x, xs⟩ <;> simp only [hdata] <;> rfl
  · rfl

/-- Lemma: `GetMean` always returns the mean of the stored samples and leaves the
cache fresh, provided the cache was not stale-but-marked-fresh. -/
lemma GetMean_eq (s : Stats T)
    (hm : s.last_mean_count = s.data.length → s.mean = specMean s.data) :
    s.GetMean = (specMean s.data,
      { s with
        last_mean_count := s.data.length
        mean := specMean s.data }) := by
  unfold GetMean
  split
  · rfl
  · rename_i h
    push_neg at h
    have h1 := hm h
    rw [← h, ← h1]

/-- Lemma: `RefreshMinMax` always leaves the extrema of the stored samples (0 on no
samples) with a fresh cache. -/
lemma RefreshMinMax_eq (s : Stats T)
    (hmin : s.last_minmax_count = s.data.length → s.min = specMin s.data)
    (hmax : s.last_minmax_count = s.data.length → s.max = specMax s.data) :
    s.RefreshMinMax =
      { s with
        last_minmax_count := s.data.length
        min := specMin s.data
        max := specMax s.data } := by
  unfold RefreshMinMax
  split
  · rcases hdata : s.data with _ | ⟨x, xs⟩ <;>
      simp only [hdata, specMin, specMax]
  · rename_i h
    push_neg at h
    obtain ⟨da, lmc, lvc, lmm, me, va, mn, mx⟩ := s
    simp only at h hmin hmax ⊢
    subst h
    rw [← hmin rfl, ← hmax rfl]

/-- Lemma: `GetVariance` always returns the variance of the stored samples; it
refreshes both the variance cache and (through its internal `GetMean()`
call) the mean cache. -/
lemma GetVariance_eq (s : Stats T)
    (hm : s.last_mean_count = s.data.length → s.mean = specMean s.data)
    (hv : s.last_variance_count = s.data.length →
      s.variance = specVariance s.data)
    (hvm : s.last_variance_count = s.data.length →
      s.last_mean_count = s.data.length) :
    s.GetVariance = (specVariance s.data,
      { s with
        last_mean_count := s.data.length
        last_variance_count := s.data.length
        mean := specMean s.data
        variance := specVariance s.data }) := by
  unfold GetVariance
  split
  · dsimp only
    rw [GetMean_eq ({ s with last_variance_count := s.data.length }) hm]
    exact rfl
  · rename_i h
    push_neg at h
    have h2 := hvm h
    have h1 := hv h
    have h3 := hm h2
    obtain ⟨da, lmc, lvc, lmm, me, va, mn, mx⟩ := s
    simp only at h h1 h2 h3 ⊢
    subst h h2 h1 h3
    rfl

/-- The inductive invariant on `Stats` states: every staleness counter is at
most the sample count (counters are only ever set to a past sample count and
the data vector never shrinks), a counter that matches the sample count
certifies its cached value, and a fresh variance cache implies a fresh mean
cache (GetVariance refreshes both). -/
structure Valid (s : Stats T) : Prop where
  meanCount : s.last_mean_count ≤ s.data.length
  varCount : s.last_variance_count ≤ s.data.length
  minmaxCount : s.last_minmax_count ≤ s.data.length
  meanOk : s.last_mean_count = s.data.length → s.mean = specMean s.data
  varOk : s.last_variance_count = s.data.length →
    s.variance = specVariance s.data
  varMean : s.last_variance_count = s.data.length →
    s.last_mean_count = s.data.length
  minOk : s.last_minmax_count = s.data.length → s.min = specMin s.data
  maxOk : s.last_minmax_count = s.data.length → s.max = specMax s.data

lemma valid_init : Valid (init : Stats T) := by
  refine ⟨le_refl _, le_refl _, le_refl _, ?_, ?_, ?_, ?_, ?_⟩ <;> intro _
  · show (0 : T) = specMean ([] : List T)
    simp [specMean]
  · show (0 : T) = specVariance ([] : List T)
    simp [specVariance]
  · rfl
  · rfl
  · rfl

lemma valid_Push {s : Stats T} (h : Valid s) (x : T) : Valid (s.Push x) := by
  have hmc := h.meanCount
  have hvc := h.varCount
  have hmmc := h.minmaxCount
  obtain ⟨da, lmc, lvc, lmm, me, va, mn, mx⟩ := s
  simp only at hmc hvc hmmc
  refine ⟨?_, ?_, ?_, ?_, ?_, ?_, ?_, ?_⟩ <;>
    simp only [Push, List.length_append, List.length_cons, List.length_nil] <;>
    first
      | omega
      | (intro heq; exact absurd heq (by omega))

lemma valid_GetMean {s : Stats T} (h : Valid s) : Valid (s.GetMean).2 := by
  rw [GetMean_eq s h.meanOk]
  exact ⟨le_refl _, h.varCount, h.minmaxCount, fun _ => rfl, h.varOk,
    fun _ => rfl, h.minOk, h.maxOk⟩

lemma valid_GetVariance {s : Stats T} (h : Valid s) :
    Valid (s.GetVariance).2 := by
  rw [GetVariance_eq s h.meanOk h.varOk h.varMean]
  exact ⟨le_refl _, le_refl _, h.minmaxCount, fun _ => rfl, fun _ => rfl,
    fun _ => rfl, h.minOk, h.maxOk⟩

lemma valid_RefreshMinMax {s : Stats T} (h : Valid s) :
    Valid (s.RefreshMinMax) := by
  rw [RefreshMinMax_eq s h.minOk h.maxOk]
  exact ⟨h.meanCount, h.varCount, le_refl _, h.meanOk, h.varOk, h.varMean,
    fun _ => rfl, fun _ => rfl⟩

/-! ### Getter return values on a valid state -/

lemma GetMean_fst {s : Stats T} (h : Valid s) :
    (s.GetMean).1 = specMean s.data := by
  rw [GetMean_eq s h.meanOk]

lemma GetVariance_fst {s : Stats T} (h : Valid s) :
    (s.GetVariance).1 = specVariance s.data := by
  rw [GetVariance_eq s h.meanOk h.varOk h.varMean]

lemma GetMin_fst {s : Stats T} (h : Valid s) :
    (s.GetMin).1 = specMin s.data := by
  unfold GetMin
  rw [RefreshMinMax_eq s h.minOk h.maxOk]

lemma GetMax_fst {s : Stats T} (h : Valid s) :
    (s.GetMax).1 = specMax s.data := by
  unfold GetMax
  rw [RefreshMinMax_eq s h.minOk h.maxOk]

end Stats

/-- One read-only-in-value but cache-mutating getter invocation. -/
inductive StatsGetter where
  | mean
  | variance
  | minval
  | maxval

/-- Invoke a getter, keeping only the (possibly cache-refreshed) state. -/
def applyGetter {T : Type} [LinearOrderedField T] (s : Stats T) :
    StatsGetter → Stats T
  | .mean => (s.GetMean).2
  | .variance => (s.GetVariance).2
  | .minval => (s.GetMin).2
  | .maxval => (s.GetMax).2

/-- Invoke a sequence of getters. -/
def applyGetters {T : Type} [LinearOrderedField T] (s : Stats T) :
    List StatsGetter → Stats T
  | [] => s
  | g :: gs => applyGetters (applyGetter s g) gs

/-- Push a batch of samples in order. -/
def pushList {T : Type} [LinearOrderedField T] (s : Stats T) (l : List T) :
    Stats T :=
  l.foldl Stats.Push s

namespace Stats

variable {T : Type} [LinearOrderedField T]

lemma data_applyGetter (s : Stats T) (g : StatsGetter) :
    (applyGetter s g).data = s.data := by
  cases g <;>
    simp [applyGetter, GetMin, GetMax, data_GetMean, data_GetVariance,
      data_RefreshMinMax]

lemma valid_applyGetter {s : Stats T} (h : Valid s) (g : StatsGetter) :
    Valid (applyGetter s g) := by
  cases g with
  | mean => exact valid_GetMean h
  | variance => exact valid_GetVariance h
  | minval => exact valid_RefreshMinMax h
  | maxval => exact valid_RefreshMinMax h

lemma data_applyGetters : ∀ (gs : List StatsGetter) (s : Stats T),
    (applyGetters s gs).data = s.data := by
  intro gs
  induction gs with
  | nil => intro s; rfl
  | cons g gs ih =>
    intro s
    show (applyGetters (applyGetter s g) gs).data = s.data
    rw [ih, data_applyGetter]

lemma valid_applyGetters : ∀ (gs : List StatsGetter) (s : Stats T),
    Valid s → Valid (applyGetters s gs) := by
  intro gs
  induction gs with
  | nil => intro s h; exact h
  | cons g gs ih => intro s h; exact ih _ (valid_applyGetter h g)

lemma data_pushList : ∀ (l : List T) (s : Stats T),
    (pushList s l).data = s.data ++ l := by
  intro l
  induction l with
  | nil => intro s; simp [pushList]
  | cons x xs ih =>
    intro s
    show (pushList (s.Push x) xs).data = s.data ++ (x :: xs)
    rw [ih, data_Push]
    simp

lemma valid_pushList : ∀ (l : List T) (s : Stats T),
    Valid s → Valid (pushList s l) := by
  intro l
  induction l with
  | nil => intro s h; exact h
  | cons x xs ih => intro s h; exact ih _ (valid_Push h x)

end Stats

/-! ## C9: batched pushing is transparent to the getters -/

/-- C9: pushing samples `A` and then samples `B` — with an arbitrary
sequence of `GetMean`/`GetVariance`/`GetMin`/`GetMax` invocations between
the two batches, each of which may refresh the memoization caches — yields
the same four getter results as pushing `A ++ B` in one batch: the caches
are refreshed on the next read after a push, so only the stored sample
sequence matters. -/
theorem stats_batch_split (A B : List ℚ) (gs : List StatsGetter) :
    ((pushList (applyGetters (pushList Stats.init A) gs) B).GetMean).1 =
      ((pushList Stats.init (A ++ B)).GetMean).1 ∧
    ((pushList (applyGetters (pushList Stats.init A) gs) B).GetVariance).1 =
      ((pushList Stats.init (A ++ B)).GetVariance).1 ∧
    ((pushList (applyGetters (pushList Stats.init A) gs) B).GetMin).1 =
      ((pushList Stats.init (A ++ B)).GetMin).1 ∧
    ((pushList (applyGetters (pushList Stats.init A) gs) B).GetMax).1 =
      ((pushList Stats.init (A ++ B)).GetMax).1 := by
  have hd1 : (pushList (applyGetters (pushList Stats.init A) gs) B).data
      = A ++ B := by
    rw [Stats.data_pushList, Stats.data_applyGetters, Stats.data_pushList]
    simp [Stats.init]
  have hd2 : (pushList (Stats.init : Stats ℚ) (A ++ B)).data = A ++ B := by
    rw [Stats.data_pushList]
    simp [Stats.init]
  have hv1 : Stats.Valid (pushList (applyGetters (pushList Stats.init A) gs) B) :=
    Stats.valid_pushList B _
      (Stats.valid_applyGetters gs _ (Stats.valid_pushList A _ Stats.valid_init))
  have hv2 : Stats.Valid (pushList (Stats.init : Stats ℚ) (A ++ B)) :=
    Stats.valid_pushList (A ++ B) _ Stats.valid_init
  refine ⟨?_, ?_, ?_, ?_⟩
  · rw [Stats.GetMean_fst hv1, Stats.GetMean_fst hv2, hd1, hd2]
  · rw [Stats.GetVariance_fst hv1, Stats.GetVariance_fst hv2, hd1, hd2]
  · rw [Stats.GetMin_fst hv1, Stats.GetMin_fst hv2, hd1, hd2]
  · rw [Stats.GetMax_fst hv1, Stats.GetMax_fst hv2, hd1, hd2]

/-! ## C10: getters on a freshly constructed accumulator -/

/-- C10: on a freshly constructed `Stats` with no samples, all four getters
return 0 without tripping the internal assertions: the cached counters (0)
already equal the empty data size, so every getter takes its cached branch
and the `assert(last_* != 0)` statements — which live only in the recompute
branches — are never reached. -/
theorem stats_empty_getters :
    ((Stats.init : Stats ℚ).GetMean).1 = 0 ∧
    ((Stats.init : Stats ℚ).GetVariance).1 = 0 ∧
    ((Stats.init : Stats ℚ).GetMin).1 = 0 ∧
    ((Stats.init : Stats ℚ).GetMax).1 = 0 ∧
    Stats.meanAssertOk (Stats.init : Stats ℚ) ∧
    Stats.varianceAssertOk (Stats.init : Stats ℚ) := by
  refine ⟨rfl, rfl, rfl, rfl, fun h => absurd rfl h, fun h => absurd rfl h⟩

end WebRTCSpec
